import Mathlib

/-!
Shallow embedding of `imblearn/over_sampling/_random_over_sampler.py`
(`RandomOverSampler._fit_resample`), the core of random over-sampling with
optional smoothed (ROSE) bootstrap.

Conventions of the embedding:

* Matrix entries are modelled by `Value`: either a real number (`num`) or a
  genuinely non-numeric payload (`str`).  Strings whose text parses as a
  number would be coerced by `sklearn.check_array`; such data is represented
  directly as `num`, so `str` stands for data on which numeric coercion fails.
* Class labels are integers (`Label := ℤ`); the algorithm only ever compares
  labels for equality.
* Machine floats are idealised as real numbers `ℝ`.  User-supplied shrinkage
  constants are kept as rationals `ℚ` (exact inputs) and coerced to `ℝ` where
  the code multiplies with them.
* The numpy `RandomState` is modelled as two indexed streams with cursors:
  `ints` drives `choice` (uniform index draws) and `reals` drives `randn`
  (standard-normal draws; the distribution itself is not modelled, only
  which stream positions are consumed).
-/

namespace RandomOverSampler

/-- A matrix entry: numeric, or non-numeric content on which the
`check_array(dtype="numeric")` coercion fails. -/
inductive Value where
  | num (x : ℝ)
  | str (s : String)

abbrev Label := ℤ

/-- Storage format of the feature matrix (`scipy.sparse` formats accepted by
`_check_X_y` are csr and csc; anything else is a dense ndarray). -/
inductive MatFormat where
  | dense
  | csr
  | csc
deriving DecidableEq

/-- A dtype is an opaque tag; `promoted` stands for the (unmodelled) numpy
type-promotion result of stacking blocks with differing dtypes.  The stacking
proved about never mixes dtypes on the sparse path, so `promoted` is a
fallback that the theorems show is not reached there. -/
inductive DType where
  | tag (n : ℕ)
  | promoted
deriving DecidableEq

/-- The dtype of a freshly computed dense perturbation block
(`randn` output is float64). -/
def float64 : DType := .tag 0

/-- A 2-D array / sparse matrix: rows of entries plus shape and
representation metadata (`X.shape = (rows.length, ncols)`). -/
structure Mat where
  rows : List (List Value)
  ncols : ℕ
  fmt : MatFormat
  dtype : DType

/-- Rectangularity: every row has the declared number of columns. -/
def Mat.WF (X : Mat) : Prop := ∀ r ∈ X.rows, r.length = X.ncols

/-- The random state: an integer stream driving `choice` and a real stream
standing for the standard-normal draws of `randn`, each with a cursor. -/
structure RNG where
  ints : ℕ → ℕ
  reals : ℕ → ℝ
  ipos : ℕ
  rpos : ℕ

/-- Errors raised by `_fit_resample` (all surface as `ValueError`). -/
inductive RosError where
  | incompleteShrinkage (missing : List Label)
  | nonNumeric
  | emptyPool
deriving DecidableEq

/-- `np.flatnonzero(y == c)`: the ascending list of row indices whose label
equals `c`. -/
def flatnonzero (y : List Label) (c : Label) : List ℕ :=
  (List.range y.length).filter (fun i => y.getD i 0 == c)

/-- Modelled from the spec: the collaborating `random_state.choice` (numpy
`RandomState`, `replace=True`) per the Bootstrap Selector contract — it
"fails with an `EmptyPoolError` if this pool is empty" (numpy rejects an
empty `a`), and otherwise draws `k` pool elements with replacement; the
draws are represented by indexing the integer stream modulo the pool size,
which realises exactly "duplicates expected and allowed" and keeps every
draw inside the pool. -/
def choice (pool : List ℕ) (k : ℕ) (g : RNG) : Except RosError (List ℕ × RNG) :=
  if pool.isEmpty then .error .emptyPool
  else .ok ((List.range k).map (fun t => pool.getD (g.ints (g.ipos + t) % pool.length) 0),
            { g with ipos := g.ipos + k })

/-- `random_state.randn(k, f)`: a `k × f` matrix taken from the real stream
(row-major), advancing the cursor by `k * f`. -/
def randn (g : RNG) (k f : ℕ) : List (List ℝ) × RNG :=
  ((List.range k).map (fun i => (List.range f).map (fun j => g.reals (g.rpos + i * f + j))),
   { g with rpos := g.rpos + k * f })

/-- `np.diagflat v`: the square matrix with `v` on the diagonal. -/
def diagflat (v : List ℝ) : List (List ℝ) :=
  (List.range v.length).map (fun i =>
    (List.range v.length).map (fun j => if i = j then v.getD i 0 else 0))

/-- `A.dot(B)` for row-lists: entry `(i, j)` is `∑ t, A[i][t] * B[t][j]`. -/
def matMul (A B : List (List ℝ)) : List (List ℝ) :=
  A.map (fun arow =>
    (List.range (B.headD []).length).map (fun j =>
      ((List.range B.length).map (fun t => arow.getD t 0 * (B.getD t []).getD j 0)).sum))

/-- Elementwise sum of two row-lists (shapes agree where used). -/
def matAdd (A B : List (List ℝ)) : List (List ℝ) :=
  List.zipWith (fun r s => List.zipWith (· + ·) r s) A B

/-- `np.std(rows, axis=0)` at column `j`: the population standard deviation
(`ddof = 0`) of the `j`-th entries; the sparse path of the source computes
the same value via `mean_variance_axis` followed by `np.sqrt`. -/
noncomputable def colStd (rows : List (List ℝ)) (j : ℕ) : ℝ :=
  let xs := rows.map (fun r => r.getD j 0)
  let μ := xs.sum / (xs.length : ℝ)
  Real.sqrt ((xs.map (fun x => (x - μ) ^ 2)).sum / (xs.length : ℝ))

/-- The Silverman-style bandwidth of line 195:
`(4 / ((n_features + 2) * n_samples)) ** (1 / (n_features + 4))`. -/
noncomputable def smoothingConstant (nSamples nFeatures : ℕ) : ℝ :=
  (4 / (((nFeatures : ℝ) + 2) * (nSamples : ℝ))) ^ ((1 : ℝ) / ((nFeatures : ℝ) + 4))

/-- Lines 194–210, the Smoothing Engine: given the (numeric) matrix rows
`Xq`, its global shape `n × f`, the class's eligible pool, the bootstrap-drawn
indices, the class's shrinkage factor and the `randn` draw `Z`, build
`Z.dot(np.diagflat(shrinkage * smoothing_constant * X_class_scale))
 + X[bootstrap_indices, :]`. -/
noncomputable def smoothedBlock (Xq : List (List ℝ)) (n f : ℕ) (pool bIdx : List ℕ)
    (s : ℚ) (Z : List (List ℝ)) : List (List ℝ) :=
  let h := smoothingConstant n f
  let poolRows := pool.map (fun i => Xq.getD i [])
  let scale := (List.range f).map (fun j => colStd poolRows j)
  let smoothingMatrix := diagflat (scale.map (fun σ => (s : ℝ) * h * σ))
  matAdd (matMul Z smoothingMatrix) (bIdx.map (fun i => Xq.getD i []))

/-- Extract the numeric payload (total; only applied after the numeric
check, where every entry is `num`). -/
def valToReal : Value → ℝ
  | .num x => x
  | .str _ => 0

/-- Is this entry numeric? -/
def Value.isNum : Value → Bool
  | .num _ => true
  | .str _ => false

/-- The `check_array(dtype="numeric")` test: succeeds iff every entry is
numeric (on success the data is unchanged; the sparse formats the sampler
accepts are always numeric already). -/
def allNumeric (X : Mat) : Bool :=
  X.rows.all (fun r => r.all Value.isNum)

/-- The numeric view of the matrix rows used by the smoothed path. -/
def numRows (X : Mat) : List (List ℝ) :=
  X.rows.map (fun r => r.map valToReal)

/-- Per-class result accumulated by the resampling loop: the newly generated
rows (with the dtype the block carries into the final stacking), their
labels, and the bootstrap-drawn source indices. -/
structure ClassResult where
  newRows : List (List Value)
  blockDtype : DType
  newLabels : List Label
  drawn : List ℕ

/-- Shrinkage lookup `self.shrinkage_[class_sample]` on the resolved
association list (resolution guarantees the key is present). -/
def shrLookup (shr : List (Label × ℚ)) (c : Label) : ℚ :=
  ((shr.find? (fun p => p.1 == c)).map Prod.snd).getD 0

/-- Lines 184–218, the per-class loop: for each `(class, count)` of the
target mapping in order, draw the bootstrap indices from the class's
eligible pool, then either generate a smoothed block (coerced back to `X`'s
dtype when `X` is sparse, line 211–212) or copy the drawn rows verbatim. -/
noncomputable def resampleLoop (X : Mat) (y : List Label) (smoothed : Bool)
    (shr : List (Label × ℚ)) :
    List (Label × ℕ) → RNG → Except RosError (List ClassResult × RNG)
  | [], g => .ok ([], g)
  | (c, k) :: rest, g =>
    match choice (flatnonzero y c) k g with
    | .error e => .error e
    | .ok (bIdx, g1) =>
      if smoothed then
        let n := X.rows.length
        let f := X.ncols
        let Zg := randn g1 k f
        let newR := smoothedBlock (numRows X) n f (flatnonzero y c) bIdx
          (shrLookup shr c) Zg.1
        let bd := if X.fmt = .dense then float64 else X.dtype
        match resampleLoop X y smoothed shr rest Zg.2 with
        | .error e => .error e
        | .ok (res, g2) =>
          .ok (⟨newR.map (fun r => r.map Value.num), bd,
                bIdx.map (fun i => y.getD i 0), bIdx⟩ :: res, g2)
      else
        match resampleLoop X y smoothed shr rest g1 with
        | .error e => .error e
        | .ok (res, g2) =>
          .ok (⟨bIdx.map (fun i => X.rows.getD i []), X.dtype,
                bIdx.map (fun i => y.getD i 0), bIdx⟩ :: res, g2)

/-- Shrinkage configuration: a scalar broadcast to every class of the target
mapping, or an explicit per-class table. -/
inductive Shrink where
  | scalar (s : ℚ)
  | table (m : List (Label × ℚ))

/-- Lines 152–166: resolve the shrinkage configuration against the target
mapping.  A scalar broadcasts to every target class; a table must cover
every target class, otherwise the call fails naming the missing classes
(`sampling_strategy_.keys() - shrinkage.keys()`). -/
def resolveShrinkage (strategy : List (Label × ℕ)) :
    Shrink → Except RosError (List (Label × ℚ))
  | .scalar s => .ok (strategy.map (fun p => (p.1, s)))
  | .table m =>
    let missing := (strategy.map Prod.fst).filter
      (fun c => !(m.any (fun p => p.1 == c)))
    if missing.isEmpty then .ok m else .error (.incompleteShrinkage missing)

/-- Dtype of a stack of blocks: the common dtype when all blocks agree with
the first, otherwise the unmodelled numpy promotion. -/
def vstackDtype (d0 : DType) (ds : List DType) : DType :=
  if ds.all (fun d => d == d0) then d0 else .promoted

/-- Input of one `_fit_resample` call: the validated `X` and `y`, the
resolved sampling strategy (`self.sampling_strategy_`, in its insertion
order), the `smoothed_bootstrap` flag, the shrinkage configuration and the
random state. -/
structure FitInput where
  X : Mat
  y : List Label
  strategy : List (Label × ℕ)
  smoothed : Bool
  shrinkage : Shrink
  g : RNG

/-- Output of a successful call: the resampled matrix, the resampled labels,
`sample_indices_`, and `shrinkage_` (`none` when smoothing is off). -/
structure FitOutput where
  Xres : Mat
  yres : List Label
  sampleIndices : List ℕ
  shrinkageUsed : Option (List (Label × ℚ))

/-- Lines 180–226: assemble the final output from the original data and the
per-class results — original block first, then each class's block; the
stacked matrix keeps `X`'s format (`sparse.vstack(..., format=X.format)` /
dense `np.vstack`). -/
def assemble (inp : FitInput) (res : List ClassResult)
    (shrUsed : Option (List (Label × ℚ))) : FitOutput :=
  { Xres := { rows := inp.X.rows ++ (res.map ClassResult.newRows).flatten
            , ncols := inp.X.ncols
            , fmt := inp.X.fmt
            , dtype := vstackDtype inp.X.dtype (res.map ClassResult.blockDtype) }
  , yres := inp.y ++ (res.map ClassResult.newLabels).flatten
  , sampleIndices := List.range inp.X.rows.length ++ (res.map ClassResult.drawn).flatten
  , shrinkageUsed := shrUsed }

/-- `_fit_resample`, lines 148–228, paired with the number of times the
numeric validation of lines 169–176 ran during the call.  Smoothed mode
first resolves the shrinkage configuration, then validates `X` numerically
exactly once, then runs the per-class loop; non-smoothed mode skips both
checks (`shrinkage_ = None`). -/
noncomputable def fitResampleChecked (inp : FitInput) : Except RosError FitOutput × ℕ :=
  if inp.smoothed then
    match resolveShrinkage inp.strategy inp.shrinkage with
    | .error e => (.error e, 0)
    | .ok shr =>
      if allNumeric inp.X then
        match resampleLoop inp.X inp.y true shr inp.strategy inp.g with
        | .error e => (.error e, 1)
        | .ok (res, _) => (.ok (assemble inp res (some shr)), 1)
      else (.error .nonNumeric, 1)
  else
    match resampleLoop inp.X inp.y false [] inp.strategy inp.g with
    | .error e => (.error e, 0)
    | .ok (res, _) => (.ok (assemble inp res none), 0)

/-- The call itself (result without the validation counter). -/
noncomputable def fitResample (inp : FitInput) : Except RosError FitOutput :=
  (fitResampleChecked inp).1

/-! ### Basic facts about the selector and the random draws -/

theorem mem_flatnonzero {y : List Label} {c : Label} {i : ℕ} :
    i ∈ flatnonzero y c ↔ i < y.length ∧ y.getD i 0 = c := by
  simp [flatnonzero, List.mem_filter, List.mem_range]

theorem choice_ok {pool : List ℕ} {k : ℕ} {g : RNG} {b : List ℕ} {g' : RNG}
    (h : choice pool k g = .ok (b, g')) :
    b.length = k ∧ ∀ i ∈ b, i ∈ pool := by
  unfold choice at h
  by_cases hp : pool.isEmpty
  · simp [hp] at h
  · rw [if_neg hp] at h
    simp only [Except.ok.injEq, Prod.mk.injEq] at h
    obtain ⟨hb, _⟩ := h
    constructor
    · rw [← hb]; simp
    · intro i hi
      rw [← hb] at hi
      simp only [List.mem_map, List.mem_range] at hi
      obtain ⟨t, _, ht⟩ := hi
      rw [← ht]
      have hlen : 0 < pool.length := by
        cases pool with
        | nil => simp at hp
        | cons a l => simp
      have hm : g.ints (g.ipos + t) % pool.length < pool.length := Nat.mod_lt _ hlen
      rw [List.getD_eq_getElem _ _ hm]
      exact List.getElem_mem hm

theorem choice_empty {k : ℕ} {g : RNG} :
    choice [] k g = .error .emptyPool := by
  simp [choice]

theorem randn_fst_length (g : RNG) (k f : ℕ) : ((randn g k f).1).length = k := by
  simp [randn]

theorem smoothedBlock_length (Xq : List (List ℝ)) (n f : ℕ) (pool bIdx : List ℕ)
    (s : ℚ) (Z : List (List ℝ)) (hZ : Z.length = bIdx.length) :
    (smoothedBlock Xq n f pool bIdx s Z).length = bIdx.length := by
  simp [smoothedBlock, matAdd, matMul, List.length_zipWith, hZ]

/-! ### The per-class contract of the resampling loop -/

/-- What one iteration of the loop guarantees for the strategy entry it
consumed: the drawn indices number exactly the requested count and lie in the
class's eligible pool, the generated labels are the labels of the drawn
source rows, the generated block has exactly the requested number of rows,
in plain mode the block is the drawn rows copied verbatim, and the block's
dtype is the one carried to the final stacking. -/
def perClassSpec (X : Mat) (y : List Label) (sm : Bool)
    (p : Label × ℕ) (r : ClassResult) : Prop :=
  r.drawn.length = p.2 ∧
  (∀ i ∈ r.drawn, i ∈ flatnonzero y p.1) ∧
  r.newLabels = r.drawn.map (fun i => y.getD i 0) ∧
  r.newRows.length = p.2 ∧
  (sm = false → r.newRows = r.drawn.map (fun i => X.rows.getD i []) ∧
    r.blockDtype = X.dtype) ∧
  (sm = true → r.blockDtype = (if X.fmt = .dense then float64 else X.dtype))

theorem resampleLoop_spec (X : Mat) (y : List Label) (sm : Bool)
    (shr : List (Label × ℚ)) :
    ∀ (strat : List (Label × ℕ)) (g : RNG) (res : List ClassResult) (g' : RNG),
      resampleLoop X y sm shr strat g = .ok (res, g') →
      List.Forall₂ (perClassSpec X y sm) strat res := by
  intro strat
  induction strat with
  | nil =>
    intro g res g' h
    simp only [resampleLoop, Except.ok.injEq, Prod.mk.injEq] at h
    rw [← h.1]
    exact List.Forall₂.nil
  | cons p rest ih =>
    obtain ⟨c, k⟩ := p
    intro g res g' h
    rw [resampleLoop] at h
    cases hc : choice (flatnonzero y c) k g with
    | error e => rw [hc] at h; simp at h
    | ok v =>
      obtain ⟨bIdx, g1⟩ := v
      rw [hc] at h
      obtain ⟨hbl, hbm⟩ := choice_ok hc
      cases sm with
      | false =>
        simp only [Bool.false_eq_true, if_false] at h
        cases hr : resampleLoop X y false shr rest g1 with
        | error e => rw [hr] at h; simp at h
        | ok w =>
          obtain ⟨res1, g2⟩ := w
          rw [hr] at h
          simp only [Except.ok.injEq, Prod.mk.injEq] at h
          rw [← h.1]
          refine List.Forall₂.cons ?_ (ih g1 res1 g2 hr)
          exact ⟨hbl, hbm, rfl, by simpa using hbl,
            fun _ => ⟨rfl, rfl⟩, fun hco => nomatch hco⟩
      | true =>
        simp only [if_true] at h
        cases hr : resampleLoop X y true shr rest ((randn g1 k X.ncols).2) with
        | error e => rw [hr] at h; simp at h
        | ok w =>
          obtain ⟨res1, g2⟩ := w
          rw [hr] at h
          simp only [Except.ok.injEq, Prod.mk.injEq] at h
          rw [← h.1]
          have hZ : ((randn g1 k X.ncols).1).length = bIdx.length := by
            rw [randn_fst_length, hbl]
          have hlen : (List.map (fun r => List.map Value.num r)
              (smoothedBlock (numRows X) X.rows.length X.ncols (flatnonzero y c) bIdx
                (shrLookup shr c) (randn g1 k X.ncols).1)).length = k := by
            rw [List.length_map, smoothedBlock_length _ _ _ _ _ _ _ hZ, hbl]
          exact List.Forall₂.cons
            ⟨hbl, hbm, rfl, hlen, fun hco => by simp at hco, fun _ => rfl⟩
            (ih _ res1 g2 hr)

theorem fitResample_ok_elim {inp : FitInput} {out : FitOutput}
    (h : fitResample inp = .ok out) :
    ∃ shr res g',
      resampleLoop inp.X inp.y inp.smoothed shr inp.strategy inp.g = .ok (res, g') ∧
      out = assemble inp res (if inp.smoothed then some shr else none) := by
  unfold fitResample fitResampleChecked at h
  cases hs : inp.smoothed with
  | false =>
    rw [hs] at h
    simp only [Bool.false_eq_true, if_false] at h
    cases hr : resampleLoop inp.X inp.y false [] inp.strategy inp.g with
    | error e => rw [hr] at h; simp at h
    | ok w =>
      obtain ⟨res, g'⟩ := w
      rw [hr] at h
      simp only [Except.ok.injEq] at h
      exact ⟨[], res, g', hr, h.symm⟩
  | true =>
    rw [hs] at h
    simp only [if_true] at h
    cases hshr : resolveShrinkage inp.strategy inp.shrinkage with
    | error e => rw [hshr] at h; simp at h
    | ok shr =>
      rw [hshr] at h
      dsimp only at h
      by_cases hnum : allNumeric inp.X
      · rw [if_pos hnum] at h
        cases hr : resampleLoop inp.X inp.y true shr inp.strategy inp.g with
        | error e => rw [hr] at h; simp at h
        | ok w =>
          obtain ⟨res, g'⟩ := w
          rw [hr] at h
          simp only [Except.ok.injEq] at h
          exact ⟨shr, res, g', hr, h.symm⟩
      · rw [if_neg hnum] at h; simp at h

theorem resampleLoop_ok_of_nonempty (X : Mat) (y : List Label) (sm : Bool)
    (shr : List (Label × ℚ)) :
    ∀ (strat : List (Label × ℕ)) (g : RNG),
      (∀ p ∈ strat, flatnonzero y p.1 ≠ []) →
      ∃ res g', resampleLoop X y sm shr strat g = .ok (res, g') := by
  intro strat
  induction strat with
  | nil => exact fun g _ => ⟨[], g, rfl⟩
  | cons p rest ih =>
    obtain ⟨c, k⟩ := p
    intro g hne
    have hpool : ¬(flatnonzero y c).isEmpty = true := by
      have := hne (c, k) (List.mem_cons_self _ _)
      simpa [List.isEmpty_iff] using this
    have hc : ∃ bl g1, choice (flatnonzero y c) k g = .ok (bl, g1) := by
      rw [choice, if_neg hpool]; exact ⟨_, _, rfl⟩
    obtain ⟨bl, g1, hc⟩ := hc
    rw [resampleLoop, hc]
    cases sm with
    | false =>
      simp only [Bool.false_eq_true, if_false]
      obtain ⟨res, g2, hr⟩ := ih g1 (fun q hq => hne q (List.mem_cons_of_mem _ hq))
      rw [hr]
      exact ⟨_, _, rfl⟩
    | true =>
      simp only [if_true]
      obtain ⟨res, g2, hr⟩ :=
        ih (randn g1 k X.ncols).2 (fun q hq => hne q (List.mem_cons_of_mem _ hq))
      rw [hr]
      exact ⟨_, _, rfl⟩

/-! ### Aggregates of the per-class results -/

theorem drawn_lengths {X : Mat} {y : List Label} {sm : Bool}
    {strat : List (Label × ℕ)} {res : List ClassResult}
    (h : List.Forall₂ (perClassSpec X y sm) strat res) :
    res.map (fun r => r.drawn.length) = strat.map Prod.snd := by
  induction h with
  | nil => rfl
  | cons hpr _ ihh => simp [ihh, hpr.1]

theorem newRows_lengths {X : Mat} {y : List Label} {sm : Bool}
    {strat : List (Label × ℕ)} {res : List ClassResult}
    (h : List.Forall₂ (perClassSpec X y sm) strat res) :
    res.map (fun r => r.newRows.length) = strat.map Prod.snd := by
  induction h with
  | nil => rfl
  | cons hpr _ ihh => simp [ihh, hpr.2.2.2.1]

theorem labels_of_block {X : Mat} {y : List Label} {sm : Bool}
    {p : Label × ℕ} {r : ClassResult} (h : perClassSpec X y sm p r) :
    ∀ l ∈ r.newLabels, l = p.1 := by
  intro l hl
  rw [h.2.2.1] at hl
  simp only [List.mem_map] at hl
  obtain ⟨i, hi, hil⟩ := hl
  rw [← hil]
  exact (mem_flatnonzero.1 (h.2.1 i hi)).2

theorem flatten_labels_count_zero {X : Mat} {y : List Label} {sm : Bool} :
    ∀ {strat : List (Label × ℕ)} {res : List ClassResult},
      List.Forall₂ (perClassSpec X y sm) strat res →
      ∀ {c : Label}, (∀ p ∈ strat, p.1 ≠ c) →
      ((res.map ClassResult.newLabels).flatten).count c = 0 := by
  intro strat res h
  induction h with
  | nil => intro c _; rfl
  | cons hpr _ ihh =>
    intro c hne
    simp only [List.map_cons, List.flatten_cons, List.count_append]
    rw [ihh (fun p hp => hne p (List.mem_cons_of_mem _ hp)), Nat.add_zero,
      List.count_eq_zero]
    intro hc
    exact hne _ (List.mem_cons_self _ _) (labels_of_block hpr c hc).symm

theorem flatten_labels_count {X : Mat} {y : List Label} {sm : Bool} :
    ∀ {strat : List (Label × ℕ)} {res : List ClassResult},
      List.Forall₂ (perClassSpec X y sm) strat res →
      (strat.map Prod.fst).Nodup →
      ∀ {c : Label} {k : ℕ}, (c, k) ∈ strat →
      ((res.map ClassResult.newLabels).flatten).count c = k := by
  intro strat res h
  induction h with
  | nil => intro _ c k hm; cases hm
  | cons hpr hrest ihh =>
    rename_i p r strat' res'
    intro hnd c k hm
    rw [List.map_cons] at hnd
    obtain ⟨hhead, htail⟩ := List.nodup_cons.1 hnd
    simp only [List.map_cons, List.flatten_cons, List.count_append]
    rcases List.mem_cons.1 hm with heq | hmem
    · subst heq
      rw [flatten_labels_count_zero hrest, Nat.add_zero]
      · rw [List.count_eq_length.2 (fun b hb => (labels_of_block hpr b hb).symm)]
        rw [hpr.2.2.1, List.length_map, hpr.1]
      · intro q hq hqc
        apply hhead
        rw [← hqc]
        show q.1 ∈ List.map Prod.fst strat'
        exact List.mem_map_of_mem Prod.fst hq
    · have hne : p.1 ≠ c := by
        intro hpc
        apply hhead
        rw [hpc]
        exact List.mem_map_of_mem Prod.fst hmem
      rw [List.count_eq_zero.2 (fun hc =>
          hne (labels_of_block hpr c hc).symm), Nat.zero_add]
      exact ihh htail hmem

/-! ### Entrywise description of the smoothing algebra -/

theorem getD_map_lt {α β : Type _} (f : α → β) (l : List α) (i : ℕ)
    (hi : i < l.length) (d : β) (d' : α) :
    (l.map f).getD i d = f (l.getD i d') := by
  rw [List.getD_eq_getElem _ _ (by simpa using hi), List.getElem_map,
    List.getD_eq_getElem _ _ hi]

theorem getD_range_lt (n i : ℕ) (hi : i < n) (d : ℕ) :
    (List.range n).getD i d = i := by
  rw [List.getD_eq_getElem _ _ (by simpa using hi), List.getElem_range]

theorem headD_eq_getD_zero {α : Type _} (l : List α) (d : α) :
    l.headD d = l.getD 0 d := by
  cases l <;> rfl

theorem diagflat_length (v : List ℝ) : (diagflat v).length = v.length := by
  simp [diagflat]

theorem diagflat_headD_length (v : List ℝ) (hv : 0 < v.length) :
    ((diagflat v).headD []).length = v.length := by
  rw [headD_eq_getD_zero]
  unfold diagflat
  rw [getD_map_lt _ _ 0 (by simpa using hv) _ 0]
  simp

theorem diagflat_entry (v : List ℝ) (t j : ℕ) (ht : t < v.length)
    (hj : j < v.length) :
    ((diagflat v).getD t []).getD j 0 = if t = j then v.getD t 0 else 0 := by
  unfold diagflat
  rw [getD_map_lt _ _ t (by simpa using ht) _ 0, getD_range_lt _ _ ht,
    getD_map_lt _ _ j (by simpa using hj) _ 0, getD_range_lt _ _ hj]

theorem sum_single (g : ℕ → ℝ) (v : ℝ) (j : ℕ) :
    ∀ n, j < n →
      ((List.range n).map (fun t => g t * (if t = j then v else 0))).sum = g j * v := by
  intro n
  induction n with
  | zero => intro hj; omega
  | succ m ihm =>
    intro hj
    rw [List.range_succ, List.map_append, List.sum_append]
    by_cases hjm : j = m
    · subst hjm
      have h0 : ((List.range j).map (fun t => g t * (if t = j then v else 0))).sum = 0 := by
        apply List.sum_eq_zero
        intro x hx
        simp only [List.mem_map, List.mem_range] at hx
        obtain ⟨t, ht, hxe⟩ := hx
        rw [← hxe, if_neg (by omega), mul_zero]
      rw [h0]
      simp
    · have hne : m ≠ j := fun hh => hjm hh.symm
      rw [ihm (by omega)]
      simp [hne]

theorem matMul_row (A B : List (List ℝ)) (i : ℕ) (hi : i < A.length) :
    (matMul A B).getD i [] =
      (List.range ((B.headD []).length)).map (fun j =>
        ((List.range B.length).map
          (fun t => (A.getD i []).getD t 0 * ((B.getD t []).getD j 0))).sum) := by
  unfold matMul
  rw [getD_map_lt _ A i hi [] []]

theorem matMul_diag_entry (Z : List (List ℝ)) (v : List ℝ) (i j : ℕ)
    (hiZ : i < Z.length) (hj : j < v.length) :
    ((matMul Z (diagflat v)).getD i []).getD j 0 =
      (Z.getD i []).getD j 0 * v.getD j 0 := by
  have hv : 0 < v.length := Nat.lt_of_le_of_lt (Nat.zero_le _) hj
  rw [matMul_row _ _ i hiZ, diagflat_headD_length v hv,
    getD_map_lt _ _ j (by simpa using hj) _ 0, getD_range_lt _ _ hj,
    diagflat_length]
  rw [List.map_congr_left (g := fun t =>
      (Z.getD i []).getD t 0 * (if t = j then v.getD j 0 else 0)) ?_]
  · exact sum_single _ _ _ _ hj
  · intro t ht
    rw [diagflat_entry v t j (List.mem_range.1 ht) hj]
    by_cases htj : t = j
    · subst htj; rfl
    · simp [htj]

theorem diagflat_headD_length_eq (v : List ℝ) :
    ((diagflat v).headD []).length = v.length := by
  cases hv : v.length with
  | zero =>
    have hnil : v = [] := List.length_eq_zero.1 hv
    subst hnil
    rfl
  | succ m => rw [diagflat_headD_length v (by omega), hv]

theorem matAdd_row (A B : List (List ℝ)) (i : ℕ)
    (hiA : i < A.length) (hiB : i < B.length) :
    (matAdd A B).getD i [] =
      List.zipWith (· + ·) (A.getD i []) (B.getD i []) := by
  unfold matAdd
  rw [List.getD_eq_getElem _ _ (by rw [List.length_zipWith]; exact lt_min hiA hiB),
    List.getElem_zipWith, List.getD_eq_getElem _ _ hiA, List.getD_eq_getElem _ _ hiB]

theorem zipWith_add_getD (r s : List ℝ) (j : ℕ)
    (hjr : j < r.length) (hjs : j < s.length) :
    (List.zipWith (· + ·) r s).getD j 0 = r.getD j 0 + s.getD j 0 := by
  rw [List.getD_eq_getElem _ _ (by rw [List.length_zipWith]; exact lt_min hjr hjs),
    List.getElem_zipWith, List.getD_eq_getElem _ _ hjr, List.getD_eq_getElem _ _ hjs]

theorem flatten_labels_align {X : Mat} {y : List Label} {sm : Bool}
    {strat : List (Label × ℕ)} {res : List ClassResult}
    (h : List.Forall₂ (perClassSpec X y sm) strat res) (c : Label) :
    List.Forall₂ (fun (l : Label) (i : ℕ) =>
        l = y.getD i 0 ∧ (l = c → i ∈ flatnonzero y c))
      ((res.map ClassResult.newLabels).flatten)
      ((res.map ClassResult.drawn).flatten) := by
  refine List.rel_flatten ?_
  induction h with
  | nil => exact List.Forall₂.nil
  | cons hpr _ ihh =>
    refine List.Forall₂.cons ?_ ihh
    rw [hpr.2.2.1, List.forall₂_map_left_iff, List.forall₂_same]
    intro i hi
    refine ⟨rfl, fun hc => ?_⟩
    exact mem_flatnonzero.2 ⟨(mem_flatnonzero.1 (hpr.2.1 i hi)).1, hc⟩

theorem flatten_rows_align {X : Mat} {y : List Label}
    {strat : List (Label × ℕ)} {res : List ClassResult}
    (h : List.Forall₂ (perClassSpec X y false) strat res) :
    List.Forall₂ (fun (row : List Value) (l : Label) =>
        ∃ i, i < y.length ∧ row = X.rows.getD i [] ∧ l = y.getD i 0)
      ((res.map ClassResult.newRows).flatten)
      ((res.map ClassResult.newLabels).flatten) := by
  refine List.rel_flatten ?_
  induction h with
  | nil => exact List.Forall₂.nil
  | cons hpr _ ihh =>
    refine List.Forall₂.cons ?_ ihh
    rw [(hpr.2.2.2.2.1 rfl).1, hpr.2.2.1,
      List.forall₂_map_left_iff, List.forall₂_map_right_iff, List.forall₂_same]
    intro i hi
    exact ⟨i, (mem_flatnonzero.1 (hpr.2.1 i hi)).1, rfl, rfl⟩

theorem smoothedBlock_row_length (Xq : List (List ℝ)) (n f : ℕ)
    (pool bIdx : List ℕ) (s : ℚ) (Z : List (List ℝ)) (i : ℕ)
    (hib : i < bIdx.length) (hiZ : i < Z.length)
    (hXq : ∀ r ∈ Xq, r.length = f) (hbb : ∀ t ∈ bIdx, t < Xq.length) :
    ((smoothedBlock Xq n f pool bIdx s Z).getD i []).length = f := by
  simp only [smoothedBlock]
  rw [matAdd_row _ _ i (by simpa [matMul] using hiZ) (by simpa using hib),
    List.length_zipWith, matMul_row _ _ i hiZ,
    getD_map_lt _ bIdx i hib [] 0]
  have hbase : (Xq.getD (bIdx.getD i 0) []).length = f := by
    have htmem : bIdx.getD i 0 ∈ bIdx := by
      rw [List.getD_eq_getElem _ _ hib]; exact List.getElem_mem hib
    have ht := hbb _ htmem
    rw [List.getD_eq_getElem _ _ ht]
    exact hXq _ (List.getElem_mem ht)
  rw [hbase]
  simp only [List.length_map, List.length_range, diagflat_headD_length_eq, min_self]

/-- **C3**: in smoothed mode the block generated for a class is, entrywise,
`Z·diag(s·h·σ) + X[drawn]`: entry `(i, j)` equals the standard-normal draw
`Z[i][j]` scaled by `s * h * σ_j` — with `h` the bandwidth computed from the
*global* row count `n` and feature count `f` of `X` and `σ_j` the
population standard deviation (`ddof = 0`) of column `j` over the class's
eligible-pool rows — plus entry `j` of the bootstrap-drawn source row. -/
theorem smoothedBlock_formula (Xq : List (List ℝ)) (n f : ℕ) (pool bIdx : List ℕ)
    (s : ℚ) (Z : List (List ℝ)) (i j : ℕ)
    (hib : i < bIdx.length) (hiZ : i < Z.length) (hj : j < f)
    (hXq : ∀ r ∈ Xq, r.length = f) (hbb : ∀ t ∈ bIdx, t < Xq.length) :
    ((smoothedBlock Xq n f pool bIdx s Z).getD i []).getD j 0 =
      (Z.getD i []).getD j 0 *
        ((s : ℝ) * smoothingConstant n f *
          colStd (pool.map (fun t => Xq.getD t [])) j) +
      (Xq.getD (bIdx.getD i 0) []).getD j 0 := by
  have htmem : bIdx.getD i 0 ∈ bIdx := by
    rw [List.getD_eq_getElem _ _ hib]; exact List.getElem_mem hib
  have hbase : (Xq.getD (bIdx.getD i 0) []).length = f := by
    have ht := hbb _ htmem
    rw [List.getD_eq_getElem _ _ ht]
    exact hXq _ (List.getElem_mem ht)
  simp only [smoothedBlock]
  rw [matAdd_row _ _ i (by simpa [matMul] using hiZ) (by simpa using hib)]
  rw [zipWith_add_getD _ _ j ?_ ?_]
  · rw [getD_map_lt _ bIdx i hib [] 0]
    rw [matMul_diag_entry Z _ i j hiZ (by simpa using hj)]
    rw [getD_map_lt _ _ j (by simpa using hj) 0 0,
      getD_map_lt _ _ j (by simpa using hj) 0 0, getD_range_lt _ _ hj]
  · rw [matMul_row _ _ i hiZ]
    simp only [List.length_map, List.length_range, diagflat_headD_length_eq]
    exact hj
  · rw [getD_map_lt _ bIdx i hib [] 0, hbase]
    exact hj

/-- Witness for C3 at a concrete smoothed block. -/
theorem smoothedBlock_formula_witness :
    ((smoothedBlock [[(1:ℝ)], [2]] 2 1 [1] [1, 1] 1 [[0], [0]]).getD 0 []).getD 0 0 =
      (([[(0:ℝ)], [0]] : List (List ℝ)).getD 0 []).getD 0 0 *
        (((1:ℚ) : ℝ) * smoothingConstant 2 1 *
          colStd (([1] : List ℕ).map (fun t => [[(1:ℝ)], [2]].getD t [])) 0) +
      (([[(1:ℝ)], [2]] : List (List ℝ)).getD (([1, 1] : List ℕ).getD 0 0) []).getD 0 0 :=
  smoothedBlock_formula [[1], [2]] 2 1 [1] [1, 1] 1 [[0], [0]] 0 0
    (by decide) (by decide) (by decide) (by decide) (by decide)

/-- **C5**: with shrinkage factor `0` the diagonal noise-scale matrix
collapses to zero, so every generated row equals its bootstrap-drawn source
row exactly. -/
theorem smoothedBlock_zero_shrinkage (Xq : List (List ℝ)) (n f : ℕ)
    (pool bIdx : List ℕ) (Z : List (List ℝ))
    (hZl : Z.length = bIdx.length)
    (hXq : ∀ r ∈ Xq, r.length = f) (hbb : ∀ t ∈ bIdx, t < Xq.length) :
    smoothedBlock Xq n f pool bIdx 0 Z = bIdx.map (fun t => Xq.getD t []) := by
  apply List.ext_getElem
  · rw [smoothedBlock_length _ _ _ _ _ _ _ hZl, List.length_map]
  · intro i h1 h2
    have hib : i < bIdx.length := by simpa using h2
    have hiZ : i < Z.length := by rw [hZl]; exact hib
    rw [← List.getD_eq_getElem _ [] h1, ← List.getD_eq_getElem _ [] h2]
    have hbase : (Xq.getD (bIdx.getD i 0) []).length = f := by
      have htmem : bIdx.getD i 0 ∈ bIdx := by
        rw [List.getD_eq_getElem _ _ hib]; exact List.getElem_mem hib
      have ht := hbb _ htmem
      rw [List.getD_eq_getElem _ _ ht]
      exact hXq _ (List.getElem_mem ht)
    rw [getD_map_lt _ bIdx i hib [] 0]
    apply List.ext_getElem
    · rw [smoothedBlock_row_length _ _ _ _ _ _ _ _ hib hiZ hXq hbb, hbase]
    · intro j hj1 hj2
      have hjf : j < f := by
        rw [smoothedBlock_row_length _ _ _ _ _ _ _ _ hib hiZ hXq hbb] at hj1
        exact hj1
      rw [← List.getD_eq_getElem _ 0 hj1, ← List.getD_eq_getElem _ 0 hj2]
      rw [smoothedBlock_formula _ _ _ _ _ _ _ i j hib hiZ hjf hXq hbb]
      simp

/-- Witness for C5 at a concrete smoothed block with a nonzero draw. -/
theorem smoothedBlock_zero_shrinkage_witness :
    smoothedBlock [[(1:ℝ)], [2]] 2 1 [1] [1, 1] 0 [[5], [7]] =
      ([1, 1] : List ℕ).map (fun t => [[(1:ℝ)], [2]].getD t []) :=
  smoothedBlock_zero_shrinkage [[1], [2]] 2 1 [1] [1, 1] [[5], [7]]
    (by decide) (by decide) (by decide)

/-! ### Shared concrete fixtures used by the witnesses -/

noncomputable def gw : RNG := ⟨fun _ => 0, fun _ => 0, 0, 0⟩

noncomputable def Xw : Mat := ⟨[[.num 1], [.num 2]], 1, .dense, .tag 7⟩

def yw : List Label := [0, 1]

noncomputable def inpw : FitInput := ⟨Xw, yw, [(1, 2)], false, .scalar 1, gw⟩

noncomputable def outw : FitOutput :=
  { Xres := ⟨[[.num 1], [.num 2], [.num 2], [.num 2]], 1, .dense, .tag 7⟩
  , yres := [0, 1, 1, 1]
  , sampleIndices := [0, 1, 1, 1]
  , shrinkageUsed := none }

/-! ### The claims -/

/-- **C2**: every successful call returns `sample_indices_` of length
`N + Σ counts`, whose first `N` entries are `0..N-1` in order, and the first
`N` rows / labels of the resampled data are exactly the original `X` and
`y`, unperturbed. -/
theorem fitResample_identity_prefix (inp : FitInput) (out : FitOutput)
    (hy : inp.y.length = inp.X.rows.length)
    (h : fitResample inp = .ok out) :
    out.sampleIndices.length =
      inp.X.rows.length + (inp.strategy.map Prod.snd).sum ∧
    out.sampleIndices.take inp.X.rows.length = List.range inp.X.rows.length ∧
    out.Xres.rows.take inp.X.rows.length = inp.X.rows ∧
    out.yres.take inp.X.rows.length = inp.y := by
  obtain ⟨shr, res, g', hr, hout⟩ := fitResample_ok_elim h
  have hspec := resampleLoop_spec _ _ _ _ _ _ _ _ hr
  subst hout
  refine ⟨?_, ?_, ?_, ?_⟩
  · simp only [assemble, List.length_append, List.length_range, List.length_flatten,
      List.map_map]
    have hdl : List.map (List.length ∘ ClassResult.drawn) res =
        List.map Prod.snd inp.strategy := by
      simpa [Function.comp] using drawn_lengths hspec
    rw [hdl]
  · simp only [assemble]
    simp
  · simp only [assemble]
    exact List.take_left _ _
  · simp only [assemble]
    rw [show inp.X.rows.length = inp.y.length from hy.symm]
    exact List.take_left _ _

/-- Witness for C2 at a concrete non-smoothed call. -/
theorem fitResample_identity_prefix_witness :
    inpw.y.length = inpw.X.rows.length ∧
    fitResample inpw = .ok outw ∧
    (outw.sampleIndices.length =
        inpw.X.rows.length + (inpw.strategy.map Prod.snd).sum ∧
      outw.sampleIndices.take inpw.X.rows.length = List.range inpw.X.rows.length ∧
      outw.Xres.rows.take inpw.X.rows.length = inpw.X.rows ∧
      outw.yres.take inpw.X.rows.length = inpw.y) :=
  ⟨rfl, rfl, fitResample_identity_prefix inpw outw rfl rfl⟩

/-- **C1**: for every class `(c, k)` of the target mapping of a successful
call (target classes pairwise distinct, being dict keys), exactly `k` rows
beyond the original `N` carry label `c`; each new row's label equals the
label of its bootstrap-drawn source row; and every new row labelled `c` was
drawn from an original row whose label is `c`. -/
theorem fitResample_per_class (inp : FitInput) (out : FitOutput)
    (hy : inp.y.length = inp.X.rows.length)
    (hnd : (inp.strategy.map Prod.fst).Nodup)
    (h : fitResample inp = .ok out) (c : Label) (k : ℕ)
    (hm : (c, k) ∈ inp.strategy) :
    (out.yres.drop inp.X.rows.length).count c = k ∧
    List.Forall₂ (fun (l : Label) (i : ℕ) =>
        l = inp.y.getD i 0 ∧ (l = c → i ∈ flatnonzero inp.y c))
      (out.yres.drop inp.X.rows.length)
      (out.sampleIndices.drop inp.X.rows.length) := by
  obtain ⟨shr, res, g', hr, hout⟩ := fitResample_ok_elim h
  have hspec := resampleLoop_spec _ _ _ _ _ _ _ _ hr
  subst hout
  have hyd : (inp.y ++ (res.map ClassResult.newLabels).flatten).drop inp.X.rows.length
      = (res.map ClassResult.newLabels).flatten := by
    rw [← hy]; exact List.drop_left _ _
  have hsd : (List.range inp.X.rows.length ++
        (res.map ClassResult.drawn).flatten).drop inp.X.rows.length
      = (res.map ClassResult.drawn).flatten := by
    have hdl := List.drop_left (List.range inp.X.rows.length)
      ((res.map ClassResult.drawn).flatten)
    rwa [List.length_range] at hdl
  constructor
  · simp only [assemble]
    rw [hyd]
    exact flatten_labels_count hspec hnd hm
  · simp only [assemble]
    rw [hyd, hsd]
    exact flatten_labels_align hspec c

/-- Witness for C1 at a concrete non-smoothed call. -/
theorem fitResample_per_class_witness :
    fitResample inpw = .ok outw ∧
    ((outw.yres.drop inpw.X.rows.length).count 1 = 2 ∧
      List.Forall₂ (fun (l : Label) (i : ℕ) =>
          l = inpw.y.getD i 0 ∧ (l = 1 → i ∈ flatnonzero inpw.y 1))
        (outw.yres.drop inpw.X.rows.length)
        (outw.sampleIndices.drop inpw.X.rows.length)) :=
  ⟨rfl, fitResample_per_class inpw outw rfl (by decide) rfl 1 2 (by decide)⟩

/-- **C4**: when `smoothed_bootstrap` is off, every generated row of a
successful call is byte-identical to an original row of `X` whose label is
the generated row's label (pure duplication, no perturbation). -/
theorem fitResample_plain_duplicates (inp : FitInput) (out : FitOutput)
    (hsm : inp.smoothed = false)
    (hy : inp.y.length = inp.X.rows.length)
    (h : fitResample inp = .ok out) :
    List.Forall₂ (fun (row : List Value) (l : Label) =>
        ∃ i, i < inp.y.length ∧ row = inp.X.rows.getD i [] ∧ l = inp.y.getD i 0)
      (out.Xres.rows.drop inp.X.rows.length)
      (out.yres.drop inp.X.rows.length) := by
  obtain ⟨shr, res, g', hr, hout⟩ := fitResample_ok_elim h
  rw [hsm] at hr
  have hspec := resampleLoop_spec _ _ _ _ _ _ _ _ hr
  subst hout
  have hyd : (inp.y ++ (res.map ClassResult.newLabels).flatten).drop inp.X.rows.length
      = (res.map ClassResult.newLabels).flatten := by
    rw [← hy]; exact List.drop_left _ _
  simp only [assemble]
  rw [hyd, List.drop_left]
  exact flatten_rows_align hspec

/-- Witness for C4 at a concrete non-smoothed call. -/
theorem fitResample_plain_duplicates_witness :
    fitResample inpw = .ok outw ∧
    List.Forall₂ (fun (row : List Value) (l : Label) =>
        ∃ i, i < inpw.y.length ∧ row = inpw.X.rows.getD i [] ∧ l = inpw.y.getD i 0)
      (outw.Xres.rows.drop inpw.X.rows.length)
      (outw.yres.drop inpw.X.rows.length) :=
  ⟨rfl, fitResample_plain_duplicates inpw outw rfl rfl rfl⟩

/-! ### Error-path helpers -/

theorem resampleLoop_error_of_empty (X : Mat) (y : List Label) (sm : Bool)
    (shr : List (Label × ℚ)) :
    ∀ (strat : List (Label × ℕ)) (g : RNG),
      (∃ p ∈ strat, flatnonzero y p.1 = []) →
      resampleLoop X y sm shr strat g = .error .emptyPool := by
  intro strat
  induction strat with
  | nil =>
    intro g hex
    obtain ⟨p, hp, _⟩ := hex
    cases hp
  | cons q rest ih =>
    obtain ⟨c, k⟩ := q
    intro g hex
    rw [resampleLoop]
    by_cases hpool : (flatnonzero y c).isEmpty = true
    · have hc : choice (flatnonzero y c) k g = .error .emptyPool := by
        rw [choice, if_pos hpool]
      rw [hc]
    · have hrest : ∃ p ∈ rest, flatnonzero y p.1 = [] := by
        obtain ⟨p, hp, hpe⟩ := hex
        rcases List.mem_cons.1 hp with rfl | hpr
        · exact absurd (by rw [hpe]; rfl) hpool
        · exact ⟨p, hpr, hpe⟩
      have hc : ∃ bl g1, choice (flatnonzero y c) k g = .ok (bl, g1) := by
        rw [choice, if_neg hpool]; exact ⟨_, _, rfl⟩
      obtain ⟨bl, g1, hc⟩ := hc
      rw [hc]
      cases sm with
      | false =>
        simp only [Bool.false_eq_true, if_false]
        rw [ih g1 hrest]
      | true =>
        simp only [if_true]
        rw [ih (randn g1 k X.ncols).2 hrest]

theorem blockDtype_sparse {X : Mat} {y : List Label} {sm : Bool}
    {strat : List (Label × ℕ)} {res : List ClassResult}
    (h : List.Forall₂ (perClassSpec X y sm) strat res) (hfmt : X.fmt ≠ .dense) :
    ∀ r ∈ res, r.blockDtype = X.dtype := by
  induction h with
  | nil => intro r hr; cases hr
  | cons hpr _ ihh =>
    intro r hr
    rcases List.mem_cons.1 hr with rfl | hr'
    · cases hsm : sm with
      | false => exact (hpr.2.2.2.2.1 hsm).2
      | true => rw [hpr.2.2.2.2.2 hsm]; exact if_neg hfmt
    · exact ihh r hr'

theorem vstackDtype_const (d : DType) (ds : List DType)
    (hall : ∀ x ∈ ds, x = d) : vstackDtype d ds = d := by
  unfold vstackDtype
  rw [if_pos]
  rw [List.all_eq_true]
  intro x hx
  simp [hall x hx]

theorem shrLookup_const (s : ℚ) : ∀ (strat : List (Label × ℕ)) (c : Label),
    c ∈ strat.map Prod.fst → shrLookup (strat.map (fun p => (p.1, s))) c = s := by
  intro strat
  induction strat with
  | nil => intro c hc; cases hc
  | cons p rest ih =>
    intro c hc
    rw [List.map_cons]
    unfold shrLookup
    cases hpc : ((p.1, s).1 == c) with
    | false =>
      simp only [List.find?, hpc]
      have hc' : c ∈ rest.map Prod.fst := by
        rw [List.map_cons] at hc
        rcases List.mem_cons.1 hc with heq | hmem
        · exact absurd heq.symm (by simpa using hpc)
        · exact hmem
      have := ih c hc'
      unfold shrLookup at this
      exact this
    | true => simp [List.find?, hpc]

/-! ### More fixtures for the error-path witnesses -/

/-- A non-numeric feature matrix (a genuinely non-numeric string entry). -/
def Xstr : Mat := ⟨[[.str "abc"]], 1, .dense, .tag 1⟩

noncomputable def inps : FitInput := ⟨Xstr, [0], [(0, 1)], true, .scalar 1, gw⟩

noncomputable def inpe : FitInput := ⟨Xw, yw, [(5, 1)], false, .scalar 1, gw⟩

noncomputable def inpm : FitInput := ⟨Xw, yw, [(1, 2)], true, .table [], gw⟩

noncomputable def inpn : FitInput := ⟨Xw, yw, [(1, 2)], true, .scalar (-1), gw⟩

noncomputable def Xsp : Mat := ⟨[[.num 1], [.num 2]], 1, .csr, .tag 7⟩

noncomputable def inpsp : FitInput := ⟨Xsp, yw, [(1, 2)], false, .scalar 1, gw⟩

noncomputable def outsp : FitOutput :=
  { Xres := ⟨[[.num 1], [.num 2], [.num 2], [.num 2]], 1, .csr, .tag 7⟩
  , yres := [0, 1, 1, 1]
  , sampleIndices := [0, 1, 1, 1]
  , shrinkageUsed := none }

/-- **C6**: a scalar shrinkage configuration broadcasts to every class of the
target mapping; a dict configuration missing at least one target class makes
the whole call fail before any sampling work — the numeric validation has
not even run — with an error carrying exactly the missing classes. -/
theorem shrinkage_resolution_spec :
    (∀ (strat : List (Label × ℕ)) (s : ℚ),
      resolveShrinkage strat (.scalar s) = .ok (strat.map (fun p => (p.1, s)))) ∧
    (∀ (inp : FitInput) (m : List (Label × ℚ)),
      inp.smoothed = true → inp.shrinkage = .table m →
      (∃ p ∈ inp.strategy, ∀ q ∈ m, q.1 ≠ p.1) →
      ∃ miss, fitResampleChecked inp = (.error (.incompleteShrinkage miss), 0) ∧
        ∀ c : Label, c ∈ miss ↔
          (c ∈ inp.strategy.map Prod.fst ∧ ∀ q ∈ m, q.1 ≠ c)) := by
  constructor
  · intro strat s; rfl
  · intro inp m hsm hcfg hmiss
    have hne : ((inp.strategy.map Prod.fst).filter
        (fun c => !(m.any (fun p => p.1 == c)))).isEmpty = false := by
      obtain ⟨p, hp, hq⟩ := hmiss
      have hmem : p.1 ∈ (inp.strategy.map Prod.fst).filter
          (fun c => !(m.any (fun p => p.1 == c))) := by
        rw [List.mem_filter]
        refine ⟨List.mem_map_of_mem Prod.fst hp, ?_⟩
        simp only [Bool.not_eq_true', List.any_eq_false]
        intro q hqm
        simpa using hq q hqm
      cases hfe : ((inp.strategy.map Prod.fst).filter
          (fun c => !(m.any (fun p => p.1 == c)))).isEmpty with
      | false => rfl
      | true =>
        rw [List.isEmpty_iff] at hfe
        rw [hfe] at hmem
        cases hmem
    refine ⟨(inp.strategy.map Prod.fst).filter
        (fun c => !(m.any (fun p => p.1 == c))), ?_, ?_⟩
    · unfold fitResampleChecked
      rw [hsm]
      simp only [if_true]
      rw [hcfg]
      unfold resolveShrinkage
      dsimp only
      rw [hne]
      rfl
    · intro c
      rw [List.mem_filter]
      simp [List.any_eq_true]

/-- Witness for C6: a scalar resolves by broadcasting, and a dict missing a
target class fails before any work with exactly that class reported. -/
theorem shrinkage_resolution_spec_witness :
    (resolveShrinkage [((3 : Label), 4)] (.scalar (5 : ℚ)) =
      .ok [((3 : Label), (5 : ℚ))]) ∧
    (∃ miss, fitResampleChecked inpm = (.error (.incompleteShrinkage miss), 0) ∧
      ∀ c : Label, c ∈ miss ↔
        (c ∈ inpm.strategy.map Prod.fst ∧ ∀ q ∈ ([] : List (Label × ℚ)), q.1 ≠ c)) :=
  ⟨shrinkage_resolution_spec.1 [(3, 4)] 5,
   shrinkage_resolution_spec.2 inpm [] rfl rfl ⟨(1, 2), by decide, by decide⟩⟩

/-- **C7**: with smoothing requested (and a resolvable shrinkage
configuration), non-numeric data aborts the call with the descriptive error
before any output, and the numeric validation runs exactly once per call —
independent of how many classes the target mapping holds. -/
theorem numeric_check_once (inp : FitInput) (shr : List (Label × ℚ))
    (hsm : inp.smoothed = true)
    (hres : resolveShrinkage inp.strategy inp.shrinkage = .ok shr) :
    (fitResampleChecked inp).2 = 1 ∧
    (allNumeric inp.X = false →
      fitResampleChecked inp = (.error .nonNumeric, 1)) := by
  unfold fitResampleChecked
  rw [hsm]
  simp only [if_true]
  rw [hres]
  dsimp only
  by_cases hnum : allNumeric inp.X
  · rw [if_pos hnum]
    constructor
    · cases hr : resampleLoop inp.X inp.y true shr inp.strategy inp.g with
      | error e => rfl
      | ok w =>
        obtain ⟨res, g2⟩ := w
        rfl
    · intro hfalse
      rw [hnum] at hfalse
      cases hfalse
  · rw [if_neg hnum]
    exact ⟨rfl, fun _ => rfl⟩

/-- Witness for C7 at a concrete smoothed call on non-numeric data. -/
theorem numeric_check_once_witness :
    resolveShrinkage inps.strategy inps.shrinkage = .ok [((0 : Label), (1 : ℚ))] ∧
    ((fitResampleChecked inps).2 = 1 ∧
      (allNumeric inps.X = false →
        fitResampleChecked inps = (.error .nonNumeric, 1))) :=
  ⟨rfl, numeric_check_once inps [((0 : Label), (1 : ℚ))] rfl rfl⟩

/-- **C8**: a target-mapping class whose eligible pool is empty makes the
bootstrap selection fail, and the whole resampling call aborts with an
error — no partial result is returned. -/
theorem fitResample_empty_pool_aborts (inp : FitInput) (c : Label) (k : ℕ)
    (hm : (c, k) ∈ inp.strategy) (hpool : flatnonzero inp.y c = []) :
    (∀ k' g, choice (flatnonzero inp.y c) k' g = .error .emptyPool) ∧
    ∃ e, fitResample inp = .error e := by
  constructor
  · intro k' g
    rw [hpool]
    exact choice_empty
  · have hex : ∃ p ∈ inp.strategy, flatnonzero inp.y p.1 = [] := ⟨(c, k), hm, hpool⟩
    unfold fitResample fitResampleChecked
    cases hs : inp.smoothed with
    | false =>
      simp only [Bool.false_eq_true, if_false]
      rw [resampleLoop_error_of_empty _ _ _ _ _ _ hex]
      exact ⟨.emptyPool, rfl⟩
    | true =>
      simp only [if_true]
      cases hshr : resolveShrinkage inp.strategy inp.shrinkage with
      | error e =>
        exact ⟨e, rfl⟩
      | ok shr =>
        dsimp only
        by_cases hnum : allNumeric inp.X
        · rw [if_pos hnum, resampleLoop_error_of_empty _ _ _ _ _ _ hex]
          exact ⟨.emptyPool, rfl⟩
        · rw [if_neg hnum]
          exact ⟨.nonNumeric, rfl⟩

/-- Witness for C8 at a concrete call whose target class is absent. -/
theorem fitResample_empty_pool_aborts_witness :
    ((5, 1) ∈ inpe.strategy ∧ flatnonzero inpe.y 5 = []) ∧
    ((∀ k' g, choice (flatnonzero inpe.y 5) k' g = .error .emptyPool) ∧
      ∃ e, fitResample inpe = .error e) :=
  ⟨⟨by decide, by decide⟩,
   fitResample_empty_pool_aborts inpe 5 1 (by decide) (by decide)⟩

/-- **C9**: the resampled matrix keeps the input's representation kind:
dense stays dense, a sparse input keeps its storage format and its dtype;
and on a sparse input every generated block (in particular each smoothed
block, cast on line 212) carries `X`'s dtype into the final stacking. -/
theorem representation_preserved (inp : FitInput) (out : FitOutput)
    (h : fitResample inp = .ok out) :
    out.Xres.fmt = inp.X.fmt ∧
    (inp.X.fmt ≠ .dense → out.Xres.dtype = inp.X.dtype) ∧
    (inp.X.fmt ≠ .dense →
      ∀ shr res g',
        resampleLoop inp.X inp.y inp.smoothed shr inp.strategy inp.g = .ok (res, g') →
        ∀ r ∈ res, r.blockDtype = inp.X.dtype) := by
  obtain ⟨shr, res, g', hr, hout⟩ := fitResample_ok_elim h
  have hspec := resampleLoop_spec _ _ _ _ _ _ _ _ hr
  subst hout
  refine ⟨rfl, ?_, ?_⟩
  · intro hfmt
    simp only [assemble]
    apply vstackDtype_const
    intro x hx
    simp only [List.mem_map] at hx
    obtain ⟨r, hrm, hrx⟩ := hx
    rw [← hrx]
    exact blockDtype_sparse hspec hfmt r hrm
  · intro hfmt shr2 res2 g2 hr2
    exact blockDtype_sparse (resampleLoop_spec _ _ _ _ _ _ _ _ hr2) hfmt

/-- Witness for C9 at a concrete csr-sparse call. -/
theorem representation_preserved_witness :
    fitResample inpsp = .ok outsp ∧
    (outsp.Xres.fmt = inpsp.X.fmt ∧
      (inpsp.X.fmt ≠ .dense → outsp.Xres.dtype = inpsp.X.dtype) ∧
      (inpsp.X.fmt ≠ .dense →
        ∀ shr res g',
          resampleLoop inpsp.X inpsp.y inpsp.smoothed shr inpsp.strategy inpsp.g
            = .ok (res, g') →
          ∀ r ∈ res, r.blockDtype = inpsp.X.dtype)) :=
  ⟨rfl, representation_preserved inpsp outsp rfl⟩

/-- **C10**: a negative scalar shrinkage is accepted: no non-negativity
validation exists, the scalar broadcasts as-is to every target class, the
call succeeds on numeric data with nonempty pools, and the per-class factor
looked up by the smoothing engine is exactly the given negative value. -/
theorem negative_shrinkage_accepted (inp : FitInput) (s : ℚ)
    (hneg : s < 0) (hsm : inp.smoothed = true) (hcfg : inp.shrinkage = .scalar s)
    (hnum : allNumeric inp.X = true)
    (hpools : ∀ p ∈ inp.strategy, flatnonzero inp.y p.1 ≠ []) :
    resolveShrinkage inp.strategy inp.shrinkage =
      .ok (inp.strategy.map (fun p => (p.1, s))) ∧
    (∃ out, fitResample inp = .ok out) ∧
    (∀ c : Label, c ∈ inp.strategy.map Prod.fst →
      shrLookup (inp.strategy.map (fun p => (p.1, s))) c = s) := by
  refine ⟨by rw [hcfg]; rfl, ?_, fun c hc => shrLookup_const s inp.strategy c hc⟩
  obtain ⟨res, g2, hr⟩ := resampleLoop_ok_of_nonempty inp.X inp.y true
    (inp.strategy.map (fun p => (p.1, s))) inp.strategy inp.g hpools
  refine ⟨assemble inp res (some (inp.strategy.map (fun p => (p.1, s)))), ?_⟩
  unfold fitResample fitResampleChecked
  rw [hsm]
  simp only [if_true]
  rw [hcfg, show resolveShrinkage inp.strategy (.scalar s)
      = Except.ok (inp.strategy.map (fun p => (p.1, s))) from rfl]
  dsimp only
  rw [if_pos hnum, hr]

/-- Witness for C10 at a concrete smoothed call with shrinkage `-1`. -/
theorem negative_shrinkage_accepted_witness :
    ((-1 : ℚ) < 0) ∧
    (resolveShrinkage inpn.strategy inpn.shrinkage =
        .ok (inpn.strategy.map (fun p => (p.1, (-1 : ℚ)))) ∧
      (∃ out, fitResample inpn = .ok out) ∧
      (∀ c : Label, c ∈ inpn.strategy.map Prod.fst →
        shrLookup (inpn.strategy.map (fun p => (p.1, (-1 : ℚ)))) c = -1)) :=
  ⟨by decide,
   negative_shrinkage_accepted inpn (-1) (by decide) rfl rfl (by decide) (by decide)⟩

end RandomOverSampler
